import Mathlib

/-!
# Verification of `bytespool` (size-classed byte pool + growable buffer)

Shallow embedding of the Go sources `bytes_pool.go` and `buffer/buffer.go`.

Modelling conventions:
* A Go byte slice is a `GoSlice`: the full backing array (`data`, whose length
  is the slice's capacity) together with the logical length `len`.  The visible
  bytes are `data.take len`.
* `sync.Pool` is modelled as a deterministic LIFO store (`List` of backing
  arrays).  `Get` pops the head when the store is non-empty; when it is empty
  the code path falls back to a fresh zeroed allocation (in the source the
  inner `New` returns a `*[]byte` whose type assertion to `unsafe.Pointer`
  fails, so `New` always allocates fresh via `make`).
* Go `int` values that the claims exercise as sizes are modelled as `Nat`;
  arguments that the source compares against negative values (`Grow`,
  `Guarantee`, `Truncate`) are modelled as `Int`.
* `math.Ceil(math.Log2(float64(size)/float64(minSize)))` is rendered in exact
  integer arithmetic as the ceiling of the ceiling-division's base-2 logarithm
  (the spec's design note mandates exactly this integer rendering).
* Panics are modelled with `Except BufErr`; returning `.error e` corresponds
  to a panic with the named error value, which leaves the Go receiver
  unmodified (assignments in the source occur only after all checks pass).
-/

/-- Byte type: byte values are irrelevant to the claims, so bytes are `Nat`. -/
abbrev GoByte := Nat

/-- A Go slice: full backing array (`data.length` = capacity) plus logical
length.  Well-formed slices satisfy `len ≤ data.length`. -/
structure GoSlice where
  data : List GoByte
  len : Nat
  deriving Repr, DecidableEq

namespace GoSlice

/-- `cap(s)` of the Go slice. -/
def cap (s : GoSlice) : Nat := s.data.length

/-- The visible bytes `s[0:len]`. -/
def bytes (s : GoSlice) : List GoByte := s.data.take s.len

end GoSlice

/-- One size class: `type bytesPool struct { capacity int; pool sync.Pool }`.
The `sync.Pool` is modelled as a LIFO list of backing arrays. -/
structure bytesPool where
  capacity : Nat
  store : List (List GoByte)
  deriving Repr, DecidableEq

/-- `newBytesPool(size)`: a class of the given capacity with an empty store. -/
def newBytesPool (size : Nat) : bytesPool :=
  { capacity := size, store := [] }

/-- `type CapacityPools struct { minSize, maxSize, maxIndex int; pools []*bytesPool }`. -/
structure CapacityPools where
  minSize : Nat
  maxSize : Nat
  maxIndex : Nat
  pools : List bytesPool
  deriving Repr, DecidableEq

/-- `minCapacity = 2` from the source. -/
def minCapacity : Nat := 2

/-- The capacities produced by the loop
`for i := minSize; i < maxSize; i *= 2 { pools = append(pools, newBytesPool(i)) }`.
The `0 < i` guard is a termination artifact: every call site has `i ≥ 2`. -/
def poolSizes (i maxSize : Nat) : List Nat :=
  if h : 0 < i ∧ i < maxSize then i :: poolSizes (2 * i) maxSize else []
termination_by maxSize - i
decreasing_by omega

/-- `NewCapacityPools(minSize, maxSize)`: clamp the bounds, build one class per
doubling step below `maxSize`, then append the terminal class at `maxSize`. -/
def NewCapacityPools (minSize0 maxSize0 : Nat) : CapacityPools :=
  let minSize := if minSize0 < minCapacity then minCapacity else minSize0
  let maxSize := if maxSize0 < minSize then minSize else maxSize0
  let sizes := poolSizes minSize maxSize ++ [maxSize]
  { minSize := minSize
    maxSize := maxSize
    maxIndex := sizes.length - 1
    pools := sizes.map newBytesPool }

/-- Exact-integer rendering of
`int(math.Ceil(math.Log2(float64(size) / float64(m))))` for `0 < m`:
the least `k` with `size ≤ m * 2^k` (see `ceilLog2Ratio_le_iff`).  The
source's `if idx < 0 { idx = 0 }` clamp is vacuous at its call site, which
has `size > minSize`, so the exact index is nonnegative. -/
def ceilLog2Ratio (m size : Nat) : Nat :=
  Nat.clog 2 ((size + m - 1) / m)

/-- `getPool(size)`: the index of the selected class, `none` for the `nil`
(bypass) result. -/
def getPoolIdx (p : CapacityPools) (size : Nat) : Option Nat :=
  if size ≤ p.minSize then some 0
  else if size = p.maxSize then some p.maxIndex
  else if p.maxSize < size then none
  else
    let idx := ceilLog2Ratio p.minSize size
    if p.maxIndex < idx then none else some idx

/-- Replace class `i`'s store. -/
def setStore (p : CapacityPools) (i : Nat) (st : List (List GoByte)) : CapacityPools :=
  { p with pools := p.pools.set i { (p.pools.getD i (newBytesPool 0)) with store := st } }

/-- `New(size)`: pick the class via `getPool`; on `nil` allocate fresh of the
exact size; otherwise pop the class store (reinterpreting the popped backing
array at logical length `size`) or, when the store is empty, allocate a fresh
zeroed array of the class capacity (`make([]byte, size, bp.capacity)`). -/
def NewSt (p : CapacityPools) (size : Nat) : GoSlice × CapacityPools :=
  match getPoolIdx p size with
  | none => (⟨List.replicate size 0, size⟩, p)
  | some i =>
    match (p.pools.getD i (newBytesPool 0)).store with
    | [] => (⟨List.replicate (p.pools.getD i (newBytesPool 0)).capacity 0, size⟩, p)
    | a :: rest => (⟨a, size⟩, setStore p i rest)

/-- `Make(capacity)`: `p.New(capacity)[:0]`. -/
def MakeSt (p : CapacityPools) (size : Nat) : GoSlice × CapacityPools :=
  ({ (NewSt p size).1 with len := 0 }, (NewSt p size).2)

/-- `Release(buf)`: reject when `cap(buf)` is 0, exceeds `maxSize`, the class
lookup is `nil`, or the capacity mismatches the class; otherwise push the
backing array onto the class store and return `true`. -/
def ReleaseSt (p : CapacityPools) (buf : GoSlice) : Bool × CapacityPools :=
  if buf.cap = 0 ∨ p.maxSize < buf.cap then (false, p)
  else
    match getPoolIdx p buf.cap with
    | none => (false, p)
    | some i =>
      if buf.cap ≠ (p.pools.getD i (newBytesPool 0)).capacity then (false, p)
      else (true, setStore p i (buf.data :: (p.pools.getD i (newBytesPool 0)).store))

/-! ## Arithmetic facts about the class-index computation -/

/-- `ceilLog2Ratio m s` is the least `k` with `s ≤ m * 2 ^ k`: the exact value
of `ceil(log2(s / m))` (clamped below by 0). -/
theorem ceilLog2Ratio_le_iff (m s k : Nat) (hm : 0 < m) :
    ceilLog2Ratio m s ≤ k ↔ s ≤ m * 2 ^ k := by
  rw [ceilLog2Ratio, ← Nat.le_pow_iff_clog_le (by norm_num : (1:ℕ) < 2),
    Nat.div_le_iff_le_mul_add_pred hm]
  omega

/-- Position `j` exists in the doubling loop's output iff `i * 2 ^ j` is still
below `maxSize`. -/
theorem poolSizes_lt_length_iff (i M : Nat) (hi : 0 < i) (j : Nat) :
    j < (poolSizes i M).length ↔ i * 2 ^ j < M := by
  induction i, M using poolSizes.induct generalizing j with
  | case1 i M h ih =>
    rw [poolSizes, dif_pos h]
    cases j with
    | zero => simpa using h.2
    | succ j =>
      simp only [List.length_cons, Nat.succ_lt_succ_iff]
      rw [ih (by omega) j, pow_succ]
      ring_nf
  | case2 i M h =>
    rw [poolSizes, dif_neg h]
    simp only [List.length_nil, Nat.not_lt_zero, false_iff, not_lt]
    have hMi : M ≤ i := by omega
    calc M ≤ i := hMi
    _ ≤ i * 2 ^ j := Nat.le_mul_of_pos_right _ (Nat.pos_pow_of_pos _ (by norm_num))

/-- The `j`-th capacity produced by the doubling loop is `i * 2 ^ j`. -/
theorem poolSizes_getD (i M : Nat) (hi : 0 < i) (j : Nat)
    (h : j < (poolSizes i M).length) : (poolSizes i M).getD j 0 = i * 2 ^ j := by
  induction i, M using poolSizes.induct generalizing j with
  | case1 i M hc ih =>
    rw [poolSizes, dif_pos hc] at h ⊢
    cases j with
    | zero => simp
    | succ j =>
      simp only [List.getD_cons_succ]
      rw [ih (by omega) j (by simpa using h), pow_succ]
      ring
  | case2 i M hc =>
    rw [poolSizes, dif_neg hc] at h
    simp at h

/-! ## Structural invariant of a constructed pool -/

/-- Invariant satisfied by every `CapacityPools` built by `NewCapacityPools`
and preserved by `NewSt`/`ReleaseSt`: clamped bounds, one class per index with
capacity `minSize * 2 ^ j` below the terminal class and `maxSize` at it, and
every stored backing array has exactly its class's capacity. -/
structure PoolInv (p : CapacityPools) : Prop where
  hmin : 2 ≤ p.minSize
  hminmax : p.minSize ≤ p.maxSize
  hlen : p.pools.length = p.maxIndex + 1
  hcap : ∀ j, j < p.pools.length →
    (p.pools.getD j (newBytesPool 0)).capacity =
      if j < p.maxIndex then p.minSize * 2 ^ j else p.maxSize
  hlast : p.maxSize ≤ p.minSize * 2 ^ p.maxIndex
  hmid : ∀ j, j < p.maxIndex → p.minSize * 2 ^ j < p.maxSize
  hstore : ∀ j, j < p.pools.length →
    ∀ b ∈ (p.pools.getD j (newBytesPool 0)).store,
      b.length = (p.pools.getD j (newBytesPool 0)).capacity

/-- Core of `poolInv_new`, stated over already-clamped bounds. -/
theorem poolInv_core (m M : Nat) (h2 : 2 ≤ m) (hmM : m ≤ M) :
    PoolInv ⟨m, M, (poolSizes m M ++ [M]).length - 1,
      (poolSizes m M ++ [M]).map newBytesPool⟩ := by
  have hmpos : 0 < m := by omega
  have hgetD : ∀ j, j < (poolSizes m M).length + 1 →
      ((poolSizes m M ++ [M]).map newBytesPool).getD j (newBytesPool 0) =
        newBytesPool ((poolSizes m M ++ [M]).getD j 0) := by
    intro j hj
    have hj' : j < ((poolSizes m M ++ [M]).map newBytesPool).length := by
      simp only [List.length_map, List.length_append, List.length_cons,
        List.length_nil]
      omega
    have hj'' : j < (poolSizes m M ++ [M]).length := by
      simp only [List.length_append, List.length_cons, List.length_nil]
      omega
    rw [List.getD_eq_getElem _ _ hj', List.getD_eq_getElem _ _ hj'',
      List.getElem_map]
  have hcapsD : ∀ j, j < (poolSizes m M).length + 1 →
      (poolSizes m M ++ [M]).getD j 0 =
        if j < (poolSizes m M).length then m * 2 ^ j else M := by
    intro j hj
    rcases Nat.lt_or_ge j (poolSizes m M).length with hjk | hjk
    · rw [if_pos hjk, List.getD_append _ _ _ _ hjk, poolSizes_getD m M hmpos j hjk]
    · have hjk' : j = (poolSizes m M).length := by omega
      rw [if_neg (by omega), List.getD_append_right _ _ _ _ hjk, hjk']
      simp
  have hmaxIdx : (poolSizes m M ++ [M]).length - 1 = (poolSizes m M).length := by
    simp
  refine ⟨h2, hmM, by simp, ?_, ?_, ?_, ?_⟩
  · intro j hj
    dsimp only at hj ⊢
    have hj' : j < (poolSizes m M).length + 1 := by simpa using hj
    rw [hgetD j hj', hcapsD j hj', hmaxIdx]
    rfl
  · dsimp only
    rw [hmaxIdx]
    by_contra hcon
    have hh := (poolSizes_lt_length_iff m M hmpos (poolSizes m M).length).2 (by omega)
    omega
  · intro j hj
    dsimp only at hj ⊢
    rw [hmaxIdx] at hj
    exact (poolSizes_lt_length_iff m M hmpos j).1 hj
  · intro j hj b hb
    dsimp only at hj hb ⊢
    have hj' : j < (poolSizes m M).length + 1 := by simpa using hj
    rw [hgetD j hj'] at hb
    simp [newBytesPool] at hb

/-- `NewCapacityPools` always yields a pool satisfying `PoolInv`. -/
theorem poolInv_new (a b : Nat) : PoolInv (NewCapacityPools a b) := by
  have h1 : 2 ≤ (if a < minCapacity then minCapacity else a) := by
    unfold minCapacity; split <;> omega
  have h2 : (if a < minCapacity then minCapacity else a) ≤
      (if b < (if a < minCapacity then minCapacity else a) then
        (if a < minCapacity then minCapacity else a) else b) := by
    unfold minCapacity
    split <;> split <;> omega
  exact poolInv_core _ _ h1 h2

/-! ## Class selection -/

/-- The class-selection rule exactly as the spec words it: the smallest class
when `s ≤ minSize`, the terminal class when `s = maxSize`, otherwise index
`ceil(log2(s / minSize))` clamped into `[0, lastIndex]`. -/
def specClassIdx (p : CapacityPools) (s : Nat) : Nat :=
  if s ≤ p.minSize then 0
  else if s = p.maxSize then p.maxIndex
  else min (ceilLog2Ratio p.minSize s) p.maxIndex
/-- For sizes within the pool's range, `getPool` selects exactly the class the
spec describes (the clamp in `specClassIdx` never engages at the top because
`maxSize ≤ minSize * 2 ^ maxIndex`). -/
theorem getPoolIdx_eq_spec (p : CapacityPools) (hp : PoolInv p) (s : Nat)
    (hs : s ≤ p.maxSize) : getPoolIdx p s = some (specClassIdx p s) := by
  have hminpos : 0 < p.minSize := by have := hp.hmin; omega
  simp only [getPoolIdx, specClassIdx]
  rcases le_or_lt s p.minSize with h1 | h1
  · rw [if_pos h1, if_pos h1]
  · have hne : ¬ s ≤ p.minSize := by omega
    rw [if_neg hne, if_neg hne]
    by_cases h2 : s = p.maxSize
    · rw [if_pos h2, if_pos h2]
    · have h3 : ¬ p.maxSize < s := by omega
      have h4 : ceilLog2Ratio p.minSize s ≤ p.maxIndex := by
        rw [ceilLog2Ratio_le_iff _ _ _ hminpos]
        exact le_trans hs hp.hlast
      have h5 : ¬ p.maxIndex < ceilLog2Ratio p.minSize s := by omega
      rw [if_neg h2, if_neg h2, if_neg h3, if_neg h5, Nat.min_eq_left h4]

/-- The spec-selected index never exceeds the terminal index. -/
theorem specClassIdx_le (p : CapacityPools) (s : Nat) :
    specClassIdx p s ≤ p.maxIndex := by
  simp only [specClassIdx]
  split
  · omega
  · split
    · omega
    · omega

/-- The spec-selected class exists and its capacity covers the request. -/
theorem specClassIdx_capacity_ge (p : CapacityPools) (hp : PoolInv p) (s : Nat)
    (hs : s ≤ p.maxSize) :
    specClassIdx p s < p.pools.length ∧
      s ≤ (p.pools.getD (specClassIdx p s) (newBytesPool 0)).capacity := by
  have hminpos : 0 < p.minSize := by have := hp.hmin; omega
  have hle : specClassIdx p s ≤ p.maxIndex := specClassIdx_le p s
  have hlt : specClassIdx p s < p.pools.length := by
    have := hp.hlen; omega
  refine ⟨hlt, ?_⟩
  rw [hp.hcap _ hlt]
  rcases le_or_lt s p.minSize with h1 | h1
  · have hspec : specClassIdx p s = 0 := by
      simp [specClassIdx, h1]
    rw [hspec]
    split
    · simpa using le_trans h1 (Nat.le_refl _)
    · exact le_trans h1 hp.hminmax
  · have hne : ¬ s ≤ p.minSize := by omega
    by_cases h2 : s = p.maxSize
    · have hspec : specClassIdx p s = p.maxIndex := by
        simp only [specClassIdx]
        rw [if_neg hne, if_pos h2]
      rw [hspec, if_neg (by omega)]
      omega
    · have h4 : ceilLog2Ratio p.minSize s ≤ p.maxIndex := by
        rw [ceilLog2Ratio_le_iff _ _ _ hminpos]
        exact le_trans hs hp.hlast
      have hspec : specClassIdx p s = ceilLog2Ratio p.minSize s := by
        simp only [specClassIdx]
        rw [if_neg hne, if_neg h2, Nat.min_eq_left h4]
      rw [hspec]
      split
      · exact (ceilLog2Ratio_le_iff _ _ _ hminpos).1 le_rfl
      · omega

/-- Requests beyond `maxSize` bypass every class (`getPool` returns `nil`). -/
theorem getPoolIdx_over (p : CapacityPools) (hmm : p.minSize ≤ p.maxSize)
    (s : Nat) (hs : p.maxSize < s) : getPoolIdx p s = none := by
  simp only [getPoolIdx]
  rw [if_neg (by omega), if_neg (by omega), if_pos hs]

/-- A selected class index is always in range. -/
theorem getPoolIdx_lt_length (p : CapacityPools) (hp : PoolInv p) (s i : Nat)
    (h : getPoolIdx p s = some i) : i < p.pools.length := by
  have hlen := hp.hlen
  simp only [getPoolIdx] at h
  split at h
  · simp only [Option.some.injEq] at h
    omega
  · split at h
    · simp only [Option.some.injEq] at h
      omega
    · split at h
      · simp at h
      · split at h
        · simp at h
        · simp only [Option.some.injEq] at h
          omega
/-! ## Behaviour of `New` and `Release` -/

/-- `New(size)` always returns a slice of logical length `size`. -/
theorem newSt_len (p : CapacityPools) (s : Nat) : (NewSt p s).1.len = s := by
  unfold NewSt
  cases hgp : getPoolIdx p s with
  | none => rfl
  | some i =>
    dsimp only
    cases hst : (p.pools.getD i (newBytesPool 0)).store with
    | nil => rfl
    | cons a rest => rfl

/-- For in-range sizes, `New(size)` returns a slice whose capacity is exactly
the spec-selected class's capacity (whether the store is popped or a fresh
`make([]byte, size, bp.capacity)` happens). -/
theorem newSt_cap_eq (p : CapacityPools) (hp : PoolInv p) (s : Nat)
    (hs : s ≤ p.maxSize) :
    (NewSt p s).1.cap =
      (p.pools.getD (specClassIdx p s) (newBytesPool 0)).capacity := by
  have hgp := getPoolIdx_eq_spec p hp s hs
  unfold NewSt
  rw [hgp]
  dsimp only
  cases hst : (p.pools.getD (specClassIdx p s) (newBytesPool 0)).store with
  | nil => simp [GoSlice.cap]
  | cons a rest =>
    simp only [GoSlice.cap]
    exact hp.hstore (specClassIdx p s) (specClassIdx_capacity_ge p hp s hs).1 a
      (by rw [hst]; exact List.mem_cons_self a rest)

/-- Oversize requests allocate fresh, exact-size, and leave the pool alone. -/
theorem newSt_over (p : CapacityPools) (hmm : p.minSize ≤ p.maxSize) (s : Nat)
    (hs : p.maxSize < s) : NewSt p s = (⟨List.replicate s 0, s⟩, p) := by
  unfold NewSt
  rw [getPoolIdx_over p hmm s hs]

/-- `New` never returns a slice shorter than requested. -/
theorem newSt_cap_ge (p : CapacityPools) (hp : PoolInv p) (s : Nat) :
    s ≤ (NewSt p s).1.cap := by
  rcases le_or_lt s p.maxSize with hs | hs
  · rw [newSt_cap_eq p hp s hs]
    exact (specClassIdx_capacity_ge p hp s hs).2
  · rw [newSt_over p hp.hminmax s hs]
    simp [GoSlice.cap]

/-! ## `PoolInv` is preserved by the stateful operations -/

/-- Replacing one class's store with blocks of the right length preserves the
invariant. -/
theorem poolInv_setStore (p : CapacityPools) (hp : PoolInv p) (i : Nat)
    (hi : i < p.pools.length) (st : List (List GoByte))
    (hst : ∀ b ∈ st, b.length = (p.pools.getD i (newBytesPool 0)).capacity) :
    PoolInv (setStore p i st) := by
  have hlen : (setStore p i st).pools.length = p.pools.length := by
    simp [setStore]
  have hgetD : ∀ j, j < p.pools.length →
      (setStore p i st).pools.getD j (newBytesPool 0) =
        if j = i then { p.pools.getD i (newBytesPool 0) with store := st }
        else p.pools.getD j (newBytesPool 0) := by
    intro j hj
    simp only [setStore]
    by_cases hji : j = i
    · rw [if_pos hji, hji, List.getD_eq_getElem _ _ (by simpa using hi),
        List.getElem_set_self (by simpa using hi),
        List.getD_eq_getElem _ _ hi]
    · rw [if_neg hji, List.getD_eq_getElem _ _ (by simpa using hj),
        List.getElem_set_ne (by omega) (by simpa using hj),
        List.getD_eq_getElem _ _ hj]
  refine ⟨hp.hmin, hp.hminmax, ?_, ?_, hp.hlast, hp.hmid, ?_⟩
  · rw [hlen]
    exact hp.hlen
  · intro j hj
    rw [hlen] at hj
    rw [hgetD j hj]
    by_cases hji : j = i
    · rw [if_pos hji]
      show (p.pools.getD i (newBytesPool 0)).capacity = _
      rw [← hji]
      exact hp.hcap j hj
    · rw [if_neg hji]
      exact hp.hcap j hj
  · intro j hj b hb
    rw [hlen] at hj
    rw [hgetD j hj] at hb ⊢
    by_cases hji : j = i
    · rw [if_pos hji] at hb ⊢
      exact hst b hb
    · rw [if_neg hji] at hb ⊢
      exact hp.hstore j hj b hb

/-- `New` preserves the pool invariant. -/
theorem poolInv_newSt (p : CapacityPools) (hp : PoolInv p) (s : Nat) :
    PoolInv (NewSt p s).2 := by
  unfold NewSt
  cases hgp : getPoolIdx p s with
  | none => exact hp
  | some i =>
    dsimp only
    cases hst : (p.pools.getD i (newBytesPool 0)).store with
    | nil => exact hp
    | cons a rest =>
      have hi := getPoolIdx_lt_length p hp s i hgp
      exact poolInv_setStore p hp i hi rest fun b hb =>
        hp.hstore i hi b (by rw [hst]; exact List.mem_cons_of_mem _ hb)

/-- `Release` preserves the pool invariant. -/
theorem poolInv_releaseSt (p : CapacityPools) (hp : PoolInv p) (buf : GoSlice) :
    PoolInv (ReleaseSt p buf).2 := by
  unfold ReleaseSt
  split
  · exact hp
  · cases hgp : getPoolIdx p buf.cap with
    | none => exact hp
    | some i =>
      dsimp only
      split
      · exact hp
      · rename_i hne
        have hcapeq : buf.cap = (p.pools.getD i (newBytesPool 0)).capacity := by
          by_contra hc
          exact hne hc
        have hi := getPoolIdx_lt_length p hp buf.cap i hgp
        apply poolInv_setStore p hp i hi
        intro b hb
        rcases List.mem_cons.1 hb with hb | hb
        · rw [hb, ← hcapeq]
          rfl
        · exact hp.hstore i hi b hb

/-! ## Concrete evaluation helpers (the doubling loop and `Nat.clog` are
well-founded recursions, so concrete values are computed propositionally) -/

/-- Determines `ceilLog2Ratio` at concrete arguments. -/
theorem ceilLog2Ratio_eq (m s k : Nat) (hm : 0 < m) (h1 : s ≤ m * 2 ^ k)
    (h2 : k = 0 ∨ m * 2 ^ (k - 1) < s) : ceilLog2Ratio m s = k := by
  have ha : ceilLog2Ratio m s ≤ k := (ceilLog2Ratio_le_iff m s k hm).2 h1
  rcases h2 with h2 | h2
  · omega
  · have hb : ¬ ceilLog2Ratio m s ≤ k - 1 := by
      rw [ceilLog2Ratio_le_iff m s (k - 1) hm]
      omega
    omega

theorem ceilLog2Ratio_2_5 : ceilLog2Ratio 2 5 = 2 :=
  ceilLog2Ratio_eq 2 5 2 (by norm_num) (by norm_num) (by norm_num)

theorem ceilLog2Ratio_2_4 : ceilLog2Ratio 2 4 = 1 :=
  ceilLog2Ratio_eq 2 4 1 (by norm_num) (by norm_num) (by norm_num)

theorem ceilLog2Ratio_2_6 : ceilLog2Ratio 2 6 = 2 :=
  ceilLog2Ratio_eq 2 6 2 (by norm_num) (by norm_num) (by norm_num)

theorem poolSizes_two_eight : poolSizes 2 8 = [2, 4] := by
  rw [poolSizes, dif_pos (by norm_num : (0:Nat) < 2 ∧ 2 < 8),
    poolSizes, dif_pos (by norm_num : (0:Nat) < 4 ∧ 4 < 8),
    poolSizes, dif_neg (by norm_num : ¬((0:Nat) < 8 ∧ 8 < 8))]

theorem newCapacityPools_two_eight :
    NewCapacityPools 2 8 =
      ⟨2, 8, 2, [⟨2, []⟩, ⟨4, []⟩, ⟨8, []⟩]⟩ := by
  simp [NewCapacityPools, minCapacity, poolSizes_two_eight, newBytesPool]

theorem specClassIdx_two_eight_five :
    specClassIdx (NewCapacityPools 2 8) 5 = 2 := by
  rw [newCapacityPools_two_eight]
  simp [specClassIdx, ceilLog2Ratio_2_5]

/-! ## Claim theorems: size-class pool -/

/-- C1: for every pool satisfying the constructed-pool invariant and every
`s ≤ maxSize`, `New(s)` (acquireExact) returns a slice of length exactly `s`
whose capacity is the capacity of the spec-selected class (smallest class for
`s ≤ minSize`, terminal class for `s = maxSize`, else index
`ceil(log2(s/minSize))` clamped into `[0, lastIndex]`); in particular the
capacity covers `s`. -/
theorem claim_acquireExact_len_cap (p : CapacityPools) (hp : PoolInv p)
    (s : Nat) (hs : s ≤ p.maxSize) :
    (NewSt p s).1.len = s ∧
    (NewSt p s).1.cap =
      (p.pools.getD (specClassIdx p s) (newBytesPool 0)).capacity ∧
    s ≤ (NewSt p s).1.cap :=
  ⟨newSt_len p s, newSt_cap_eq p hp s hs, newSt_cap_ge p hp s⟩

/-- C1 witness: `configure(min=2, max=8)`, `acquireExact(5)` yields length 5
and capacity 8. -/
theorem claim_acquireExact_len_cap_witness :
    (NewSt (NewCapacityPools 2 8) 5).1.len = 5 ∧
    (NewSt (NewCapacityPools 2 8) 5).1.cap = 8 ∧
    5 ≤ (NewSt (NewCapacityPools 2 8) 5).1.cap := by
  have hs : (5:Nat) ≤ (NewCapacityPools 2 8).maxSize := by
    rw [newCapacityPools_two_eight]
    decide
  have h := claim_acquireExact_len_cap (NewCapacityPools 2 8)
    (poolInv_new 2 8) 5 hs
  have hcap : (NewSt (NewCapacityPools 2 8) 5).1.cap = 8 := by
    rw [h.2.1, specClassIdx_two_eight_five, newCapacityPools_two_eight]
    decide
  exact ⟨h.1, hcap, by rw [hcap]; norm_num⟩

/-- The doubling loop's output is literally the list of `i * 2 ^ j`. -/
theorem poolSizes_eq_range_map (i M : Nat) (hi : 0 < i) :
    poolSizes i M = (List.range (poolSizes i M).length).map fun j => i * 2 ^ j := by
  apply List.ext_getElem
  · simp
  · intro j h1 h2
    simp only [List.getElem_map, List.getElem_range]
    rw [← List.getD_eq_getElem _ 0 h1, poolSizes_getD i M hi j h1]

/-- The capacities of a constructed pool, in order: the doubling classes then
the terminal class. -/
theorem newCapacityPools_caps (a b : Nat) :
    (NewCapacityPools a b).pools.map bytesPool.capacity =
      poolSizes (NewCapacityPools a b).minSize (NewCapacityPools a b).maxSize
        ++ [(NewCapacityPools a b).maxSize] := by
  show (List.map bytesPool.capacity (List.map newBytesPool _)) = _
  rw [List.map_map]
  exact List.map_id _

/-- C3: construction clamps `minSize` up to 2 and `maxSize` up to `minSize`,
creates one class of capacity `minSize * 2 ^ i` (ascending) for exactly the
`i` with `minSize * 2 ^ i < maxSize`, then one terminal class of capacity
`maxSize`; the class sequence is strictly ascending and ends at `maxSize`;
concretely `NewCapacityPools 2 8` has classes `[2, 4, 8]`. -/
theorem claim_construction :
    (∀ a b : Nat,
      (NewCapacityPools a b).minSize = (if a < 2 then 2 else a) ∧
      (NewCapacityPools a b).maxSize =
        (if b < (if a < 2 then 2 else a) then (if a < 2 then 2 else a) else b) ∧
      ∃ k, (NewCapacityPools a b).pools.map bytesPool.capacity =
          ((List.range k).map fun i => (NewCapacityPools a b).minSize * 2 ^ i)
            ++ [(NewCapacityPools a b).maxSize] ∧
        (∀ i, i < k ↔
          (NewCapacityPools a b).minSize * 2 ^ i < (NewCapacityPools a b).maxSize) ∧
        List.Sorted (· < ·) ((NewCapacityPools a b).pools.map bytesPool.capacity)) ∧
    (NewCapacityPools 2 8).pools.map bytesPool.capacity = [2, 4, 8] := by
  constructor
  · intro a b
    have hp := poolInv_new a b
    have hmin : (NewCapacityPools a b).minSize = (if a < 2 then 2 else a) := rfl
    have hmax : (NewCapacityPools a b).maxSize =
        (if b < (if a < 2 then 2 else a) then (if a < 2 then 2 else a) else b) := rfl
    have hmpos : 0 < (NewCapacityPools a b).minSize := by
      have := hp.hmin; omega
    refine ⟨hmin, hmax, (poolSizes (NewCapacityPools a b).minSize
      (NewCapacityPools a b).maxSize).length, ?_, ?_, ?_⟩
    · rw [newCapacityPools_caps,
        ← poolSizes_eq_range_map _ _ hmpos]
    · intro i
      exact poolSizes_lt_length_iff _ _ hmpos i
    · rw [newCapacityPools_caps]
      rw [List.Sorted, List.pairwise_append]
      refine ⟨?_, List.pairwise_singleton _ _, ?_⟩
      · rw [List.pairwise_iff_get]
        intro i j hij
        rw [List.get_eq_getElem, List.get_eq_getElem,
          ← List.getD_eq_getElem _ 0 i.isLt, ← List.getD_eq_getElem _ 0 j.isLt,
          poolSizes_getD _ _ hmpos _ i.isLt, poolSizes_getD _ _ hmpos _ j.isLt]
        have h2 : (2:Nat) ^ (i:Nat) < 2 ^ (j:Nat) :=
          Nat.pow_lt_pow_right (by norm_num) hij
        exact Nat.mul_lt_mul_of_pos_left h2 hmpos
      · intro x hx y hy
        rw [List.mem_singleton] at hy
        rcases List.mem_iff_get.1 hx with ⟨idx, hidx⟩
        rw [← hidx, List.get_eq_getElem, ← List.getD_eq_getElem _ 0 idx.isLt,
          poolSizes_getD _ _ hmpos _ idx.isLt, hy]
        exact (poolSizes_lt_length_iff _ _ hmpos _).1 idx.isLt
  · rw [newCapacityPools_two_eight]
    decide

/-- C2: `Release(buf)` succeeds exactly when the capacity is nonzero, within
`maxSize`, and equal to the selected class's capacity; on success the backing
array is pushed onto that class's store, and on failure the pool is left
untouched. -/
theorem claim_release (p : CapacityPools) (hp : PoolInv p) (buf : GoSlice) :
    ((ReleaseSt p buf).1 = true ↔
      buf.cap ≠ 0 ∧ buf.cap ≤ p.maxSize ∧
        ∃ i, getPoolIdx p buf.cap = some i ∧
          (p.pools.getD i (newBytesPool 0)).capacity = buf.cap) ∧
    (∀ i, getPoolIdx p buf.cap = some i →
      (p.pools.getD i (newBytesPool 0)).capacity = buf.cap →
      (ReleaseSt p buf).1 = true →
      (ReleaseSt p buf).2 =
        setStore p i (buf.data :: (p.pools.getD i (newBytesPool 0)).store)) ∧
    ((ReleaseSt p buf).1 = false → (ReleaseSt p buf).2 = p) := by
  unfold ReleaseSt
  by_cases h0 : buf.cap = 0 ∨ p.maxSize < buf.cap
  · rw [if_pos h0]
    refine ⟨?_, ?_, fun _ => rfl⟩
    · simp only [Bool.false_eq_true, false_iff]
      rintro ⟨h1, h2, -⟩
      omega
    · intro i _ _ hfalse
      simp at hfalse
  · rw [if_neg h0]
    cases hgp : getPoolIdx p buf.cap with
    | none =>
      refine ⟨?_, ?_, fun _ => rfl⟩
      · simp only [Bool.false_eq_true, false_iff]
        rintro ⟨-, -, i, hi, -⟩
        simp at hi
      · intro i hi
        simp at hi
    | some i' =>
      dsimp only
      by_cases hc : buf.cap ≠ (p.pools.getD i' (newBytesPool 0)).capacity
      · rw [if_pos hc]
        refine ⟨?_, ?_, fun _ => rfl⟩
        · simp only [Bool.false_eq_true, false_iff]
          rintro ⟨-, -, i, hi, hcap⟩
          have hii : i' = i := by
            injection hi
          rw [← hii] at hcap
          exact hc hcap.symm
        · intro i _ _ hfalse
          simp at hfalse
      · rw [if_neg hc]
        push_neg at hc
        refine ⟨?_, ?_, ?_⟩
        · simp only [true_iff]
          exact ⟨by omega, by omega, i', rfl, hc.symm⟩
        · intro i hi _ _
          have hii : i' = i := by
            injection hi
          rw [← hii]
        · intro hfalse
          simp at hfalse

theorem getPoolIdx_two_eight_four :
    getPoolIdx (NewCapacityPools 2 8) 4 = some 1 := by
  rw [newCapacityPools_two_eight]
  simp [getPoolIdx, ceilLog2Ratio_2_4]

/-- C2 witness: on the `(2, 8)` pool, a capacity-4 block is accepted into
class 1. -/
theorem claim_release_witness :
    (ReleaseSt (NewCapacityPools 2 8) ⟨[7, 7, 7, 7], 4⟩).1 = true := by
  have h := claim_release (NewCapacityPools 2 8) (poolInv_new 2 8)
    ⟨[7, 7, 7, 7], 4⟩
  rw [h.1]
  refine ⟨by decide, ?_, 1, ?_, ?_⟩
  · rw [newCapacityPools_two_eight]
    decide
  · exact getPoolIdx_two_eight_four
  · rw [newCapacityPools_two_eight]
    decide

/-- C6: a request strictly beyond `maxSize` bypasses the classes: `New`
returns a fresh block with length = capacity = size and an unchanged pool,
the class lookup is `nil`, and releasing that block is refused with the pool
unchanged. -/
theorem claim_oversize (p : CapacityPools) (hp : PoolInv p) (s : Nat)
    (hs : p.maxSize < s) :
    NewSt p s = (⟨List.replicate s 0, s⟩, p) ∧
    (NewSt p s).1.len = s ∧ (NewSt p s).1.cap = s ∧
    getPoolIdx p s = none ∧
    ReleaseSt p (NewSt p s).1 = (false, p) := by
  have h := newSt_over p hp.hminmax s hs
  have hcap : (NewSt p s).1.cap = s := by
    rw [h]
    simp [GoSlice.cap]
  refine ⟨h, by rw [h], hcap, getPoolIdx_over p hp.hminmax s hs, ?_⟩
  unfold ReleaseSt
  rw [if_pos (Or.inr (by rw [hcap]; exact hs))]

/-- C6 witness: on the `(2, 8)` pool, `New(9)` gives length 9, capacity 9,
no class, and its release fails. -/
theorem claim_oversize_witness :
    (NewSt (NewCapacityPools 2 8) 9).1.len = 9 ∧
    (NewSt (NewCapacityPools 2 8) 9).1.cap = 9 ∧
    getPoolIdx (NewCapacityPools 2 8) 9 = none ∧
    ReleaseSt (NewCapacityPools 2 8) (NewSt (NewCapacityPools 2 8) 9).1 =
      (false, NewCapacityPools 2 8) := by
  have hs : (NewCapacityPools 2 8).maxSize < 9 := by
    rw [newCapacityPools_two_eight]
    decide
  have h := claim_oversize (NewCapacityPools 2 8) (poolInv_new 2 8) 9 hs
  exact ⟨h.2.1, h.2.2.1, h.2.2.2.1, h.2.2.2.2⟩

/-! ## Growable buffer (`buffer/buffer.go`)

The buffer code uses the package-level `defaultPools.bs` byte pool, whose
defining file is not among the sources.  Modelled from the spec: the growable
buffer sits on top of "the size-class pool", so each operation that touches
the pool takes the `CapacityPools` value explicitly and threads it through. -/

/-- The buffer error values `ErrTooLarge`, `ErrTruncation`, `ErrGrow`. -/
inductive BufErr where
  | errTooLarge
  | errTruncation
  | errGrow
  deriving Repr, DecidableEq

/-- `math.MaxInt32`. -/
def maxInt32 : Nat := 2 ^ 31 - 1

/-- Go's `append(s, xs...)`: in place when capacity suffices; otherwise a
reallocation (Go grows by an implementation-chosen factor; modelled as an
exact fit, which no use in this file reaches because capacity is always
guaranteed first). -/
def goAppend (s : GoSlice) (xs : List GoByte) : GoSlice :=
  if s.len + xs.length ≤ s.data.length then
    ⟨s.data.take s.len ++ xs ++ s.data.drop (s.len + xs.length), s.len + xs.length⟩
  else
    ⟨s.data.take s.len ++ xs, s.len + xs.length⟩

/-- `Guarantee(n)`: panic `ErrGrow` on negative `n`; no-op when the remaining
capacity already suffices; panic `ErrTooLarge` past the `MaxInt32` ceiling;
otherwise acquire `Make(len+n)` from the byte pool, append the old bytes,
release the old backing slice, and install the new one. -/
def Guarantee (p : CapacityPools) (bb : GoSlice) (n : Int) :
    Except BufErr (GoSlice × CapacityPools) :=
  if n < 0 then .error .errGrow
  else
    let bSize : Int := (bb.len : Int) + n
    if bSize ≤ (bb.cap : Int) then .ok (bb, p)
    else if (maxInt32 : Int) < bSize then .error .errTooLarge
    else
      let mp := MakeSt p bSize.toNat
      let buf := goAppend mp.1 bb.bytes
      .ok (buf, (ReleaseSt mp.2 bb).2)

/-- `Grow(n)`: `Guarantee(n)` then `bb.B = bb.B[:len(bb.B)+n]`. -/
def Grow (p : CapacityPools) (bb : GoSlice) (n : Int) :
    Except BufErr (GoSlice × CapacityPools) :=
  match Guarantee p bb n with
  | .error e => .error e
  | .ok (bb', p') => .ok ({ bb' with len := bb'.len + n.toNat }, p')

/-- `Truncate(n)`: panic `ErrTruncation` unless `0 ≤ n ≤ len`; then
`bb.B = bb.B[:n]`. -/
def Truncate (bb : GoSlice) (n : Int) : Except BufErr GoSlice :=
  if n < 0 ∨ (bb.len : Int) < n then .error .errTruncation
  else .ok { bb with len := n.toNat }

/-- External I/O error: end-of-stream or any other error. -/
inductive IOErr where
  | eof
  | other (code : Nat)
  deriving Repr, DecidableEq

/-- Error result of `ReadFrom`: its own `ErrTooLarge` or a propagated source
error (`none` models a `nil` error). -/
inductive RFErr where
  | tooLarge
  | io (e : IOErr)
  deriving Repr, DecidableEq

/-- Go's `copy(dst, src)` on the visible bytes. -/
def goCopy (dst src : GoSlice) : Nat × GoSlice :=
  let k := min dst.len src.len
  (k, { dst with data := (src.data.take src.len).take k ++ dst.data.drop k })

/-- `Read(p)`: `n = copy(p, bb.B)`; the error is always `nil` and the
receiver is returned untouched.  Result: `(n, err, receiver, dst)`. -/
def ReadOp (bb : GoSlice) (dst : GoSlice) :
    Nat × Option IOErr × GoSlice × GoSlice :=
  ((goCopy dst bb).1, none, bb, (goCopy dst bb).2)

/-- Modelled from the spec: an `io.Reader` source, a sequence of bytes to
deliver followed by a terminal error (end-of-stream or a genuine failure).
Each `Read(buf)` call delivers `min(len(buf), remaining)` bytes; once the
data is exhausted it reports `(0, final)`. -/
structure Reader where
  data : List GoByte
  final : IOErr
  deriving Repr, DecidableEq

/-- One `r.Read(dst)` call given `space = len(dst)`: delivered bytes, error,
remaining reader. -/
def readStep (r : Reader) (space : Nat) : List GoByte × Option IOErr × Reader :=
  if r.data.isEmpty then ([], some r.final, r)
  else (r.data.take space, none, ⟨r.data.drop space, r.final⟩)

/-- The capacity-doubling step of `ReadFrom`'s loop:
`bCap *= 2` capped at `MaxInt32`; `pNew := New(bCap)`; `copy(pNew, p)`;
`Release(p)`; continue with `pNew`. -/
def rfGrow (P : CapacityPools) (ps : GoSlice) : GoSlice × CapacityPools :=
  let bCap2 := if maxInt32 < ps.len * 2 then maxInt32 else ps.len * 2
  let np := NewSt P bCap2
  let k := min np.1.len ps.len
  ({ np.1 with data := (ps.data.take ps.len).take k ++ np.1.data.drop k },
    (ReleaseSt np.2 ps).2)

/-- The `for` loop of `ReadFrom`, with fuel (the loop does not terminate when
the buffer's capacity is 0 and data remains, so the model returns `none` when
fuel runs out; `ReadFrom` supplies fuel that suffices whenever capacity ≥ 1).
Each iteration: if the buffer is full, either abort with `ErrTooLarge` at the
`MaxInt32` ceiling (returning the untouched original receiver slice and the
count not reduced by `bLen`), or double the capacity via the pool
(`New(2*cap)` capped at `MaxInt32`, `copy`, `Release` of the old slice); then
read once; on a read error install `p[:n]` as the buffer, subtract the
starting length from the count, and fold `io.EOF` into a `nil` error. -/
def readFromLoop (bbOrig : GoSlice) (bLen : Nat) :
    CapacityPools → GoSlice → Nat → Reader → Nat →
      Option (Int × Option RFErr × GoSlice × CapacityPools)
  | _, _, _, _, 0 => none
  | P, ps, n, r, fuel + 1 =>
    if n = ps.len ∧ n = maxInt32 then
      some ((n : Int), some .tooLarge, bbOrig, P)
    else
      let grown : GoSlice × CapacityPools :=
        if n = ps.len then rfGrow P ps else (ps, P)
      let st := readStep r (grown.1.len - n)
      let nn := st.1.length
      let ps2 : GoSlice :=
        { grown.1 with data := grown.1.data.take n ++ st.1 ++ grown.1.data.drop (n + nn) }
      match st.2.1 with
      | some e =>
        if e = .eof then
          some (((n + nn - bLen : Nat) : Int), none, ⟨ps2.data, n + nn⟩, grown.2)
        else
          some (((n + nn - bLen : Nat) : Int), some (.io e), ⟨ps2.data, n + nn⟩, grown.2)
      | none => readFromLoop bbOrig bLen grown.2 ps2 (n + nn) st.2.2 fuel

/-- `ReadFrom(r)`: start from `p := bb.B[:bCap]`, `n := bLen`. -/
def ReadFrom (P : CapacityPools) (bb : GoSlice) (r : Reader) :
    Option (Int × Option RFErr × GoSlice × CapacityPools) :=
  readFromLoop bb bb.len P ⟨bb.data, bb.data.length⟩ bb.len r (r.data.length + 1)

/-- The buffer wrapper: backing slice `B` plus the atomic reference count `c`
(0 means sole ownership). -/
structure Buffer where
  B : GoSlice
  c : Int
  deriving Repr, DecidableEq

/-- `RefAdd(delta)`: `atomic.AddInt64(&bb.c, delta)`. -/
def RefAdd (bb : Buffer) (delta : Int) : Buffer :=
  { bb with c := bb.c + delta }

/-- `RefInc`: `RefAdd(1)`. -/
def RefInc (bb : Buffer) : Buffer := RefAdd bb 1

/-- `RefDec`: `RefAdd(-1)`. -/
def RefDec (bb : Buffer) : Buffer := RefAdd bb (-1)

/-- `RefStore(val)`. -/
def RefStore (bb : Buffer) (v : Int) : Buffer := { bb with c := v }

/-- `RefValue`: atomic load of the count. -/
def RefValue (bb : Buffer) : Int := bb.c

/-- `RefSwapDec`: returns the old count and decrements by one (the CAS loop,
run without interference). -/
def RefSwapDec (bb : Buffer) : Int × Buffer :=
  (bb.c, { bb with c := bb.c - 1 })

/-- `RefReset`: store 0. -/
def RefReset (bb : Buffer) : Buffer := { bb with c := 0 }

/-! ## Claim theorems: growable buffer -/

/-- When the free capacity already covers the request, `Guarantee` returns
immediately with everything untouched. -/
theorem guarantee_noop_of_le (p : CapacityPools) (bb : GoSlice) (n : Int)
    (hn : 0 ≤ n) (h : (bb.len : Int) + n ≤ (bb.cap : Int)) :
    Guarantee p bb n = .ok (bb, p) := by
  simp only [Guarantee]
  rw [if_neg (by omega), if_pos (by omega)]

/-- C10: for `n ≥ 0`, if `cap - len ≥ n` already holds then `Guarantee(n)` is
a complete no-op: no panic (even past the `MaxInt32` ceiling), no pool
traffic, and the backing slice — contents, length, capacity — unchanged. -/
theorem claim_guarantee_frame (p : CapacityPools) (bb : GoSlice) (n : Int)
    (hn : 0 ≤ n) (h : (n : Int) ≤ (bb.cap : Int) - (bb.len : Int)) :
    Guarantee p bb n = .ok (bb, p) :=
  guarantee_noop_of_le p bb n hn (by omega)

/-- C10 witness: capacity 4, length 1, `n = 2`. -/
theorem claim_guarantee_frame_witness :
    Guarantee (NewCapacityPools 2 8) ⟨[9, 0, 0, 0], 1⟩ 2 =
      .ok (⟨[9, 0, 0, 0], 1⟩, NewCapacityPools 2 8) :=
  claim_guarantee_frame (NewCapacityPools 2 8) ⟨[9, 0, 0, 0], 1⟩ 2
    (by norm_num) (by norm_num [GoSlice.cap])

/-- C5 counterexample: the claim says `Guarantee(n)` panics with `ErrTooLarge`
whenever `length + n` exceeds `2^31 - 1`; but when the current capacity
already covers `length + n` the early return fires first and no panic
happens.  Here `length = 0`, `n = 2^31 > 2^31 - 1`, capacity `2^31`. -/
theorem claim_fatal_counterexample :
    ((maxInt32 : Int) < (0 : Int) + 2 ^ 31) ∧
    Guarantee (NewCapacityPools 2 8) ⟨List.replicate (2 ^ 31) 0, 0⟩ (2 ^ 31) =
      .ok (⟨List.replicate (2 ^ 31) 0, 0⟩, NewCapacityPools 2 8) := by
  refine ⟨by norm_num [maxInt32], ?_⟩
  apply guarantee_noop_of_le
  · norm_num
  · rw [GoSlice.cap, List.length_replicate]
    norm_num

/-- C5 (amended): `Grow(n)`/`Guarantee(n)` with `n < 0` panic with `ErrGrow`;
`Truncate(n)` panics with `ErrTruncation` iff `n < 0` or `n > len`, and
otherwise sets the length to `n`; `Guarantee(n)` panics with `ErrTooLarge`
when `length + n` exceeds `2^31 - 1` **and exceeds the current capacity**
(the amendment), the panic leaving the buffer untouched (an error result
carries no new state in this model). -/
theorem claim_fatal_paths (p : CapacityPools) (bb : GoSlice) (n m : Int) :
    (n < 0 → Guarantee p bb n = .error .errGrow ∧
      Grow p bb n = .error .errGrow) ∧
    (Truncate bb m = .error .errTruncation ↔ m < 0 ∨ (bb.len : Int) < m) ∧
    (¬(m < 0 ∨ (bb.len : Int) < m) →
      Truncate bb m = .ok { bb with len := m.toNat }) ∧
    (0 ≤ n → (maxInt32 : Int) < (bb.len : Int) + n →
      (bb.cap : Int) < (bb.len : Int) + n →
      Guarantee p bb n = .error .errTooLarge) := by
  refine ⟨?_, ?_, ?_, ?_⟩
  · intro hneg
    have hg : Guarantee p bb n = .error .errGrow := by
      simp only [Guarantee]
      rw [if_pos hneg]
    refine ⟨hg, ?_⟩
    simp only [Grow]
    rw [hg]
  · constructor
    · intro h
      by_contra hc
      simp only [Truncate] at h
      rw [if_neg hc] at h
      exact Except.noConfusion h
    · intro h
      simp only [Truncate]
      rw [if_pos h]
  · intro h
    simp only [Truncate]
    rw [if_neg h]
  · intro hn hover hcap
    simp only [Guarantee]
    rw [if_neg (by omega), if_neg (by omega), if_pos (by omega)]

/-- C5 witness: concrete fatal paths on an empty zero-capacity buffer. -/
theorem claim_fatal_paths_witness :
    Guarantee (NewCapacityPools 2 8) ⟨[], 0⟩ (-1) = .error .errGrow ∧
    Grow (NewCapacityPools 2 8) ⟨[], 0⟩ (-1) = .error .errGrow ∧
    Truncate (⟨[1, 2], 2⟩ : GoSlice) (-1) = .error .errTruncation ∧
    Truncate (⟨[1, 2], 2⟩ : GoSlice) 3 = .error .errTruncation ∧
    Truncate (⟨[1, 2], 2⟩ : GoSlice) 1 = .ok ⟨[1, 2], 1⟩ ∧
    Guarantee (NewCapacityPools 2 8) ⟨[], 0⟩ (2 ^ 31) = .error .errTooLarge := by
  have h1 := claim_fatal_paths (NewCapacityPools 2 8) ⟨[], 0⟩ (-1) 0
  have h2 := claim_fatal_paths (NewCapacityPools 2 8) (⟨[1, 2], 2⟩ : GoSlice)
    0 (-1)
  have h3 := claim_fatal_paths (NewCapacityPools 2 8) (⟨[1, 2], 2⟩ : GoSlice)
    0 3
  have h4 := claim_fatal_paths (NewCapacityPools 2 8) (⟨[1, 2], 2⟩ : GoSlice)
    0 1
  have h5 := claim_fatal_paths (NewCapacityPools 2 8) ⟨[], 0⟩ (2 ^ 31) 0
  refine ⟨(h1.1 (by norm_num)).1, (h1.1 (by norm_num)).2,
    h2.2.1.mpr (by norm_num), h3.2.1.mpr (by norm_num), ?_, ?_⟩
  · have := h4.2.2.1 (by norm_num)
    simpa using this
  · exact h5.2.2.2 (by norm_num) (by norm_num [maxInt32])
      (by norm_num [GoSlice.cap])

/-- `append` onto an empty-length slice whose array can hold `xs`. -/
theorem goAppend_fits (s : GoSlice) (xs : List GoByte) (h0 : s.len = 0)
    (h : xs.length ≤ s.data.length) :
    goAppend s xs = ⟨xs ++ s.data.drop xs.length, xs.length⟩ := by
  simp only [goAppend, h0]
  rw [if_pos (by omega)]
  simp

/-- `Guarantee` on the happy path: an `ok` result whose capacity covers
`len + n`, with length and visible bytes preserved. -/
theorem guarantee_spec (p : CapacityPools) (hp : PoolInv p) (bb : GoSlice)
    (hwf : bb.len ≤ bb.data.length) (n : Int) (hn : 0 ≤ n)
    (hceil : (bb.len : Int) + n ≤ (maxInt32 : Int)) :
    ∃ bb' p', Guarantee p bb n = .ok (bb', p') ∧
      (bb.len : Int) + n ≤ (bb'.cap : Int) ∧ bb'.len = bb.len ∧
      bb'.bytes = bb.bytes := by
  rcases le_or_lt ((bb.len : Int) + n) (bb.cap : Int) with hle | hlt
  · exact ⟨bb, p, guarantee_noop_of_le p bb n hn hle, hle, rfl, rfl⟩
  · have hblen : bb.bytes.length = bb.len := by
      simp [GoSlice.bytes]
      omega
    have hsize : ((bb.len : Int) + n).toNat = bb.len + n.toNat := by omega
    have hcapge : bb.len + n.toNat ≤
        (MakeSt p ((bb.len : Int) + n).toNat).1.data.length := by
      have hdata : (MakeSt p ((bb.len : Int) + n).toNat).1.data =
          (NewSt p ((bb.len : Int) + n).toNat).1.data := rfl
      have := newSt_cap_ge p hp ((bb.len : Int) + n).toNat
      rw [GoSlice.cap] at this
      rw [hdata]
      omega
    have hlenle : bb.len ≤ (MakeSt p ((bb.len : Int) + n).toNat).1.data.length := by
      omega
    have hg := goAppend_fits (MakeSt p ((bb.len : Int) + n).toNat).1 bb.bytes
      rfl (by omega)
    refine ⟨goAppend (MakeSt p ((bb.len : Int) + n).toNat).1 bb.bytes,
      (ReleaseSt (MakeSt p ((bb.len : Int) + n).toNat).2 bb).2, ?_, ?_, ?_, ?_⟩
    · simp only [Guarantee]
      rw [if_neg (by omega), if_neg (by omega), if_neg (by omega)]
    · rw [hg]
      show (bb.len : Int) + n ≤
        ((bb.bytes ++ (MakeSt p ((bb.len : Int) + n).toNat).1.data.drop
          bb.bytes.length).length : Int)
      rw [List.length_append, List.length_drop, hblen]
      omega
    · rw [hg]
      show bb.bytes.length = bb.len
      exact hblen
    · rw [hg]
      show (bb.bytes ++ _).take bb.bytes.length = bb.bytes
      rw [List.take_left]

/-- C4: for `n ≥ 0` with `len + n` within the `2^31 - 1` ceiling,
`Guarantee(n)` yields capacity ≥ `len + n` with the length and the first
`len` bytes unchanged, and `Grow(n)` yields length `len + n` with the first
`len` bytes unchanged. -/
theorem claim_guarantee_grow (p : CapacityPools) (hp : PoolInv p)
    (bb : GoSlice) (hwf : bb.len ≤ bb.data.length) (n : Int) (hn : 0 ≤ n)
    (hceil : (bb.len : Int) + n ≤ (maxInt32 : Int)) :
    (∃ bb' p', Guarantee p bb n = .ok (bb', p') ∧
      (bb.len : Int) + n ≤ (bb'.cap : Int) ∧ bb'.len = bb.len ∧
      bb'.bytes = bb.bytes) ∧
    (∃ bg pg, Grow p bb n = .ok (bg, pg) ∧
      (bg.len : Int) = (bb.len : Int) + n ∧
      bg.bytes.take bb.len = bb.bytes) := by
  obtain ⟨bb', p', heq, hcap, hlen, hbytes⟩ :=
    guarantee_spec p hp bb hwf n hn hceil
  refine ⟨⟨bb', p', heq, hcap, hlen, hbytes⟩,
    { bb' with len := bb'.len + n.toNat }, p', ?_, ?_, ?_⟩
  · simp only [Grow]
    rw [heq]
  · show ((bb'.len + n.toNat : Nat) : Int) = (bb.len : Int) + n
    omega
  · show (bb'.data.take (bb'.len + n.toNat)).take bb.len = bb.bytes
    rw [List.take_take, Nat.min_eq_left (by omega), ← hlen]
    exact hbytes

/-- C4 witness: buffer `[1,2,3]` of capacity 4, `Guarantee(3)`/`Grow(3)`. -/
theorem claim_guarantee_grow_witness :
    (∃ bb' p', Guarantee (NewCapacityPools 2 8) ⟨[1, 2, 3, 0], 3⟩ 3 =
        .ok (bb', p') ∧ (6 : Int) ≤ (bb'.cap : Int) ∧ bb'.len = 3 ∧
        bb'.bytes = [1, 2, 3]) ∧
    (∃ bg pg, Grow (NewCapacityPools 2 8) ⟨[1, 2, 3, 0], 3⟩ 3 = .ok (bg, pg) ∧
      (bg.len : Int) = 6 ∧ bg.bytes.take 3 = [1, 2, 3]) := by
  obtain ⟨⟨bb', p', heq, hcap, hlen, hbytes⟩, ⟨bg, pg, hgeq, hglen, hgbytes⟩⟩ :=
    claim_guarantee_grow (NewCapacityPools 2 8) (poolInv_new 2 8)
      ⟨[1, 2, 3, 0], 3⟩ (by norm_num) 3 (by norm_num)
      (by norm_num [maxInt32])
  refine ⟨⟨bb', p', heq, by simpa using hcap, hlen, by simpa [GoSlice.bytes] using hbytes⟩,
    bg, pg, hgeq, by simpa using hglen, by simpa [GoSlice.bytes] using hgbytes⟩

/-- C8: `Read(dst)` never fails: the error is `nil`, the count is
`min(len(dst), len(buffer))`, exactly that prefix of the buffer is copied
into `dst` (the rest of `dst` untouched, its length and capacity intact),
and the buffer itself is returned unchanged. -/
theorem claim_read (bb dst : GoSlice) (hb : bb.len ≤ bb.data.length)
    (hd : dst.len ≤ dst.data.length) :
    (ReadOp bb dst).1 = min dst.len bb.len ∧
    (ReadOp bb dst).2.1 = none ∧
    (ReadOp bb dst).2.2.1 = bb ∧
    (ReadOp bb dst).2.2.2.bytes =
      bb.bytes.take (min dst.len bb.len) ++
        dst.bytes.drop (min dst.len bb.len) ∧
    (ReadOp bb dst).2.2.2.len = dst.len ∧
    (ReadOp bb dst).2.2.2.cap = dst.cap := by
  have hk : min dst.len bb.len ≤ bb.len := Nat.min_le_right _ _
  have hk' : min dst.len bb.len ≤ dst.len := Nat.min_le_left _ _
  have hlenA : ((bb.data.take bb.len).take (min dst.len bb.len)).length =
      min dst.len bb.len := by
    simp only [List.length_take]
    omega
  refine ⟨rfl, rfl, rfl, ?_, rfl, ?_⟩
  · show ((bb.data.take bb.len).take (min dst.len bb.len) ++
      dst.data.drop (min dst.len bb.len)).take dst.len = _
    rw [List.take_append_eq_append_take, hlenA, List.take_take]
    have hmm : min dst.len (min dst.len bb.len) = min dst.len bb.len := by
      omega
    rw [hmm]
    simp only [GoSlice.bytes]
    rw [List.drop_take]
  · show ((bb.data.take bb.len).take (min dst.len bb.len) ++
      dst.data.drop (min dst.len bb.len)).length = dst.data.length
    rw [List.length_append, hlenA, List.length_drop]
    omega

/-- C8 witness: buffer `[1,2,3]`, destination of length 2. -/
theorem claim_read_witness :
    (ReadOp ⟨[1, 2, 3], 3⟩ ⟨[9, 9], 2⟩).1 = 2 ∧
    (ReadOp ⟨[1, 2, 3], 3⟩ ⟨[9, 9], 2⟩).2.1 = none ∧
    (ReadOp ⟨[1, 2, 3], 3⟩ ⟨[9, 9], 2⟩).2.2.1 = ⟨[1, 2, 3], 3⟩ ∧
    (ReadOp ⟨[1, 2, 3], 3⟩ ⟨[9, 9], 2⟩).2.2.2.bytes = [1, 2] := by
  have h := claim_read ⟨[1, 2, 3], 3⟩ ⟨[9, 9], 2⟩ (by norm_num) (by norm_num)
  refine ⟨by simpa using h.1, h.2.1, h.2.2.1, ?_⟩
  have hb := h.2.2.2.1
  simpa [GoSlice.bytes] using hb

/-- C9: the reference-count operations compose as stated: `RefInc` then
`RefDec` restores the buffer (hence the count) exactly; on a fresh count-0
buffer the round trip loads 0; `RefAdd` shifts the count by exactly `delta`;
`RefSwapDec` returns the old count while leaving it decremented by one. -/
theorem claim_refcount (bb : Buffer) (delta : Int) :
    RefDec (RefInc bb) = bb ∧
    RefValue (RefDec (RefInc { bb with c := 0 })) = 0 ∧
    (RefAdd bb delta).c = bb.c + delta ∧
    (RefSwapDec bb).1 = RefValue bb ∧
    (RefSwapDec bb).2.c = RefValue bb - 1 := by
  refine ⟨?_, ?_, rfl, rfl, rfl⟩
  · show ({ bb with c := bb.c + 1 + -1 } : Buffer) = bb
    have hc : bb.c + 1 + -1 = bb.c := by ring
    rw [hc]
  · show (0 : Int) + 1 + -1 = 0
    ring

/-- Core facts about the doubling step, for any requested capacity beyond the
current length: the new slice is longer than the old, well-formed, carries
the old visible prefix, and the pool invariant survives the `New`/`Release`
round trip. -/
theorem rfGrow_core (P : CapacityPools) (ps : GoSlice) (hp : PoolInv P)
    (hwf : ps.len ≤ ps.data.length) (bCap2 : Nat) (hb2 : ps.len < bCap2) :
    ps.len < ({ (NewSt P bCap2).1 with
        data := (ps.data.take ps.len).take (min (NewSt P bCap2).1.len ps.len) ++
          (NewSt P bCap2).1.data.drop (min (NewSt P bCap2).1.len ps.len) } :
        GoSlice).len ∧
    ({ (NewSt P bCap2).1 with
        data := (ps.data.take ps.len).take (min (NewSt P bCap2).1.len ps.len) ++
          (NewSt P bCap2).1.data.drop (min (NewSt P bCap2).1.len ps.len) } :
        GoSlice).len ≤
      ({ (NewSt P bCap2).1 with
        data := (ps.data.take ps.len).take (min (NewSt P bCap2).1.len ps.len) ++
          (NewSt P bCap2).1.data.drop (min (NewSt P bCap2).1.len ps.len) } :
        GoSlice).data.length ∧
    ({ (NewSt P bCap2).1 with
        data := (ps.data.take ps.len).take (min (NewSt P bCap2).1.len ps.len) ++
          (NewSt P bCap2).1.data.drop (min (NewSt P bCap2).1.len ps.len) } :
        GoSlice).data.take ps.len = ps.data.take ps.len ∧
    PoolInv (ReleaseSt (NewSt P bCap2).2 ps).2 := by
  have hlen' : (NewSt P bCap2).1.len = bCap2 := newSt_len P bCap2
  have hcap' : bCap2 ≤ (NewSt P bCap2).1.data.length := by
    have := newSt_cap_ge P hp bCap2
    rw [GoSlice.cap] at this
    exact this
  have hk : min (NewSt P bCap2).1.len ps.len = ps.len := by
    rw [hlen']
    omega
  refine ⟨?_, ?_, ?_, ?_⟩
  · show ps.len < (NewSt P bCap2).1.len
    omega
  · show (NewSt P bCap2).1.len ≤
      ((ps.data.take ps.len).take (min (NewSt P bCap2).1.len ps.len) ++
        (NewSt P bCap2).1.data.drop (min (NewSt P bCap2).1.len ps.len)).length
    rw [hk, List.length_append, List.length_take, List.length_take,
      List.length_drop]
    omega
  · show ((ps.data.take ps.len).take (min (NewSt P bCap2).1.len ps.len) ++
      (NewSt P bCap2).1.data.drop (min (NewSt P bCap2).1.len ps.len)).take ps.len =
      ps.data.take ps.len
    rw [hk, List.take_take, Nat.min_self]
    apply List.take_left'
    rw [List.length_take]
    omega
  · exact poolInv_releaseSt _ (poolInv_newSt P hp bCap2) ps

/-- The doubling step grows the slice strictly (given `1 ≤ len < MaxInt32`),
keeps it well-formed, preserves the visible prefix, and preserves the pool
invariant. -/
theorem rfGrow_spec (P : CapacityPools) (ps : GoSlice) (hp : PoolInv P)
    (hwf : ps.len ≤ ps.data.length) (h1 : 1 ≤ ps.len)
    (hmax : ps.len < maxInt32) :
    ps.len < (rfGrow P ps).1.len ∧
    (rfGrow P ps).1.len ≤ (rfGrow P ps).1.data.length ∧
    (rfGrow P ps).1.data.take ps.len = ps.data.take ps.len ∧
    PoolInv (rfGrow P ps).2 := by
  have hb2 : ps.len < (if maxInt32 < ps.len * 2 then maxInt32 else ps.len * 2) := by
    split <;> omega
  exact rfGrow_core P ps hp hwf _ hb2

/-- One unfolding of the loop when the `ErrTooLarge` abort does not fire. -/
theorem readFromLoop_step (bbOrig : GoSlice) (bLen : Nat) (P : CapacityPools)
    (ps : GoSlice) (n : Nat) (r : Reader) (fuel : Nat)
    (hnot : ¬(n = ps.len ∧ n = maxInt32)) :
    readFromLoop bbOrig bLen P ps n r (fuel + 1) =
      (let grown : GoSlice × CapacityPools :=
        if n = ps.len then rfGrow P ps else (ps, P)
       let st := readStep r (grown.1.len - n)
       let nn := st.1.length
       let ps2 : GoSlice :=
         { grown.1 with
           data := grown.1.data.take n ++ st.1 ++ grown.1.data.drop (n + nn) }
       match st.2.1 with
       | some e =>
         if e = .eof then
           some (((n + nn - bLen : Nat) : Int), none, ⟨ps2.data, n + nn⟩, grown.2)
         else
           some (((n + nn - bLen : Nat) : Int), some (.io e),
             ⟨ps2.data, n + nn⟩, grown.2)
       | none => readFromLoop bbOrig bLen grown.2 ps2 (n + nn) st.2.2 fuel) := by
  rw [readFromLoop, if_neg hnot]

/-- Invariant-carrying specification of the `ReadFrom` loop: starting from a
well-formed, nonempty-capacity slice whose total final length stays below
`MaxInt32`, the loop delivers the whole reader, returns the count of bytes
read in this call, folds `io.EOF` into a `nil` error, propagates any other
source error unchanged, and ends with the buffer holding the old visible
prefix followed by all delivered bytes. -/
theorem readFromLoop_spec (fuel : Nat) :
    ∀ (P : CapacityPools) (ps : GoSlice) (n bLen : Nat) (r : Reader)
      (bbOrig : GoSlice),
      PoolInv P → n ≤ ps.len → ps.len ≤ ps.data.length → 1 ≤ ps.len →
      bLen ≤ n → n + r.data.length < maxInt32 → r.data.length + 1 ≤ fuel →
      ∃ bb' P',
        readFromLoop bbOrig bLen P ps n r fuel =
          some (((n + r.data.length - bLen : Nat) : Int),
            (if r.final = IOErr.eof then none else some (RFErr.io r.final)),
            bb', P') ∧
        bb'.bytes = ps.data.take n ++ r.data ∧
        bb'.len = n + r.data.length := by
  induction fuel with
  | zero =>
    intro P ps n bLen r bbOrig _ _ _ _ _ _ hfuel
    omega
  | succ fuel ih =>
    intro P ps n bLen r bbOrig hp hnle hwf h1 hbl hbound hfuel
    have hnmax : n < maxInt32 := by omega
    rw [readFromLoop_step bbOrig bLen P ps n r fuel
      (by rintro ⟨-, h2⟩; omega)]
    obtain ⟨G, PG, hG⟩ : ∃ G PG,
        (if n = ps.len then rfGrow P ps else (ps, P)) = (G, PG) := ⟨_, _, rfl⟩
    have hGfacts : n < G.len ∧ G.len ≤ G.data.length ∧
        G.data.take n = ps.data.take n ∧ PoolInv PG := by
      by_cases hfull : n = ps.len
      · rw [if_pos hfull] at hG
        obtain ⟨hg1, hg2, hg3, hg4⟩ := rfGrow_spec P ps hp hwf (by omega)
          (by omega)
        rw [hG] at hg1 hg2 hg3 hg4
        dsimp only at hg1 hg2 hg3 hg4
        refine ⟨by omega, hg2, ?_, hg4⟩
        rw [hfull]
        exact hg3
      · rw [if_neg hfull] at hG
        cases hG
        exact ⟨by omega, hwf, rfl, hp⟩
    obtain ⟨hGlen, hGwf, hGpre, hGP⟩ := hGfacts
    have hndata : n ≤ G.data.length := by omega
    simp only [hG]
    by_cases hemp : r.data = []
    · -- the reader is exhausted: one read returning (0, final) ends the loop
      have hstep : readStep r (G.len - n) = ([], some r.final, r) := by
        simp [readStep, hemp]
      simp only [hstep, List.length_nil, Nat.add_zero, List.append_nil,
        hemp]
      have hdata : G.data.take n ++ G.data.drop n = G.data :=
        List.take_append_drop n G.data
      by_cases hf : r.final = IOErr.eof
      · refine ⟨⟨G.data.take n ++ G.data.drop n, n⟩, PG, ?_, ?_, rfl⟩
        · simp [hf]
        · show (G.data.take n ++ G.data.drop n).take n = ps.data.take n
          rw [hdata]
          exact hGpre
      · refine ⟨⟨G.data.take n ++ G.data.drop n, n⟩, PG, ?_, ?_, rfl⟩
        · simp [hf]
        · show (G.data.take n ++ G.data.drop n).take n = ps.data.take n
          rw [hdata]
          exact hGpre
    · -- data remains: one read delivers at least one byte, recurse
      have hstep : readStep r (G.len - n) =
          (r.data.take (G.len - n), none,
            ⟨r.data.drop (G.len - n), r.final⟩) := by
        rw [readStep, if_neg (by simpa [List.isEmpty_iff] using hemp)]
      simp only [hstep]
      have hrdpos : 1 ≤ r.data.length := by
        have := List.length_pos.2 hemp
        omega
      have hnn : (r.data.take (G.len - n)).length =
          min (G.len - n) r.data.length := by
        rw [List.length_take]
      have hnn1 : 1 ≤ (r.data.take (G.len - n)).length := by omega
      have hnnle : (r.data.take (G.len - n)).length ≤ G.len - n := by omega
      have hdrop : (r.data.drop (G.len - n)).length =
          r.data.length - (G.len - n) := by
        rw [List.length_drop]
      have hA : (G.data.take n).length = n := by
        rw [List.length_take]
        omega
      have hps2len : (G.data.take n ++ r.data.take (G.len - n) ++
          G.data.drop (n + (r.data.take (G.len - n)).length)).length =
          G.data.length := by
        rw [List.length_append, List.length_append, hA, List.length_take,
          List.length_drop]
        omega
      obtain ⟨bb', P', heq, hbytes, hlen⟩ := ih PG
        ⟨G.data.take n ++ r.data.take (G.len - n) ++
          G.data.drop (n + (r.data.take (G.len - n)).length), G.len⟩
        (n + (r.data.take (G.len - n)).length) bLen
        ⟨r.data.drop (G.len - n), r.final⟩ bbOrig hGP
        (by show n + (r.data.take (G.len - n)).length ≤ G.len
            omega)
        (by show G.len ≤ (G.data.take n ++ r.data.take (G.len - n) ++
              G.data.drop (n + (r.data.take (G.len - n)).length)).length
            rw [hps2len]
            omega)
        (by show 1 ≤ G.len
            omega)
        (by show bLen ≤ n + (r.data.take (G.len - n)).length
            omega)
        (by show n + (r.data.take (G.len - n)).length +
              (r.data.drop (G.len - n)).length < maxInt32
            rw [hdrop]
            omega)
        (by show (r.data.drop (G.len - n)).length + 1 ≤ fuel
            rw [hdrop]
            omega)
      refine ⟨bb', P', ?_, ?_, ?_⟩
      · rw [heq]
        have hcnt : (n + (r.data.take (G.len - n)).length +
            (r.data.drop (G.len - n)).length - bLen : Nat) =
            (n + r.data.length - bLen : Nat) := by
          rw [hdrop]
          omega
        show some (((n + (r.data.take (G.len - n)).length +
            (r.data.drop (G.len - n)).length - bLen : Nat) : Int), _, bb', P') =
          some (((n + r.data.length - bLen : Nat) : Int), _, bb', P')
        rw [hcnt]
      · rw [hbytes]
        show (G.data.take n ++ r.data.take (G.len - n) ++
            G.data.drop (n + (r.data.take (G.len - n)).length)).take
              (n + (r.data.take (G.len - n)).length) ++
            r.data.drop (G.len - n) = ps.data.take n ++ r.data
        rw [List.take_left' (by rw [List.length_append, hA]),
          List.append_assoc, List.take_append_drop, hGpre]
      · rw [hlen]
        show n + (r.data.take (G.len - n)).length +
            (r.data.drop (G.len - n)).length = n + r.data.length
        rw [hdrop]
        omega

/-- C7: `ReadFrom(source)` appends everything the source delivers to the
buffer (growing by pool-backed doubling, capped at the `MaxInt32` ceiling,
whenever the buffer fills — the mechanism embedded in `readFromLoop`);
end-of-stream is folded into a `nil` error carrying the byte count of this
call, and any other source error is returned unchanged with that count. -/
theorem claim_readFrom (P : CapacityPools) (hp : PoolInv P) (bb : GoSlice)
    (r : Reader) (hwf : bb.len ≤ bb.data.length) (hcap1 : 1 ≤ bb.data.length)
    (hbound : bb.len + r.data.length < maxInt32) :
    ∃ bb' P', ReadFrom P bb r =
        some ((r.data.length : Int),
          (if r.final = IOErr.eof then none else some (RFErr.io r.final)),
          bb', P') ∧
      bb'.bytes = bb.bytes ++ r.data ∧
      bb'.len = bb.len + r.data.length := by
  obtain ⟨bb', P', heq, hbytes, hlen⟩ := readFromLoop_spec (r.data.length + 1)
    P ⟨bb.data, bb.data.length⟩ bb.len bb.len r bb hp
    (by show bb.len ≤ bb.data.length
        exact hwf)
    (by show bb.data.length ≤ bb.data.length
        exact le_rfl)
    (by show 1 ≤ bb.data.length
        exact hcap1)
    le_rfl hbound le_rfl
  refine ⟨bb', P', ?_, ?_, hlen⟩
  · show readFromLoop bb bb.len P ⟨bb.data, bb.data.length⟩ bb.len r
      (r.data.length + 1) = _
    rw [heq]
    have hc : (bb.len + r.data.length - bb.len : Nat) = r.data.length := by
      omega
    rw [hc]
  · rw [hbytes]
    show bb.data.take bb.len ++ r.data = bb.bytes ++ r.data
    rfl

/-- C7 witness: buffer `[1,2]` of capacity 4 reading a 5-byte EOF-terminated
source: count 5, `nil` error, contents `[1,2,5,6,7,8,9]`. -/
theorem claim_readFrom_witness :
    ∃ bb' P', ReadFrom (NewCapacityPools 2 8) ⟨[1, 2, 0, 0], 2⟩
        ⟨[5, 6, 7, 8, 9], IOErr.eof⟩ = some (5, none, bb', P') ∧
      bb'.bytes = [1, 2, 5, 6, 7, 8, 9] := by
  obtain ⟨bb', P', heq, hbytes, -⟩ :=
    claim_readFrom (NewCapacityPools 2 8) (poolInv_new 2 8) ⟨[1, 2, 0, 0], 2⟩
      ⟨[5, 6, 7, 8, 9], IOErr.eof⟩ (by norm_num) (by norm_num)
      (by norm_num [maxInt32])
  refine ⟨bb', P', ?_, ?_⟩
  · simpa using heq
  · simpa [GoSlice.bytes] using hbytes
